import Mathlib

/-!
Verification of the SCTL spatial-index and near-list specification against a
shallow embedding of the library.  The repository ships the public headers
(`tree.hpp` declaring `Tree`/`PtTree`, `boundary_integral.hpp` declaring
`BuildNearList`, `tensor.hpp` declaring `Tensor`); the corresponding
implementation files are not part of the source tree, so every operation is
modelled from the specification text and the header documentation, and all
results are settled against those models.  Machine reals are embedded as an
abstract linear ordered (floor) ring, machine integers as `Nat`.
-/

/- ===================== Near-list construction (BuildNearList) ============ -/

/-- Modelled from the spec: squared Euclidean distance between two points given
as (dimension-generic) coordinate lists, used by the near-list distance tests.
The implementation of `BuildNearList` is missing from the source tree. -/
def dist2 {R : Type} [LinearOrderedCommRing R] (a b : List R) : R :=
  (List.zipWith (fun x y => (x - y) * (x - y)) a b).sum

/-- Modelled from the spec: a target `t` is near a source node `s` with cutoff
radius `r` when the Euclidean distance from `t` to `s` is below `r`
(equivalently, `r` is positive and the squared distance is below `r * r`). -/
def isNear {R : Type} [LinearOrderedCommRing R] (t s : List R) (r : R) : Bool :=
  decide (0 < r ∧ dist2 t s < r * r)

/-- Modelled from the spec: the (coordinate, radius) pairs of the source nodes
of one element, delimited inside the flat node arrays by the per-element count
`cnt` and displacement `dsp` (`src_elem_nds_cnt` / `src_elem_nds_dsp`). -/
def elemNodes {R : Type} [LinearOrderedCommRing R]
    (Xsrc : List (List R)) (src_radius : List R) (dsp cnt : ℕ) : List (List R × R) :=
  ((Xsrc.zip src_radius).drop dsp).take cnt

/-- Modelled from the spec: the maximum node radius of an element, used by the
coarse filter as a single bounding cutoff. -/
def maxRadius {R : Type} [LinearOrderedCommRing R] (nds : List (List R × R)) : R :=
  (nds.map Prod.snd).foldr max 0

/-- Modelled from the spec: coarse filter test — the target is within the
element-wide bounding cutoff (its maximum node radius) of some node. -/
def coarseTest {R : Type} [LinearOrderedCommRing R]
    (nds : List (List R × R)) (t : List R) : Bool :=
  nds.any (fun sr => isNear t sr.1 (maxRadius nds))

/-- Modelled from the spec: fine filter test — the exact per-node test, the
target is within the own cutoff radius of some node of the element. -/
def fineTest {R : Type} [LinearOrderedCommRing R]
    (nds : List (List R × R)) (t : List R) : Bool :=
  nds.any (fun sr => isNear t sr.1 sr.2)

/-- Modelled from the spec: two-phase near list of one element over the indexed
targets — a coarse filter with the maximum node radius followed by the fine
per-node filter that removes the false positives of the coarse bound. -/
def elemNearList {R : Type} [LinearOrderedCommRing R]
    (nds : List (List R × R)) (trgs : List (ℕ × List R)) : List (ℕ × List R) :=
  (trgs.filter (fun tp => coarseTest nds tp.2)).filter (fun tp => fineTest nds tp.2)

/-- Modelled from the spec: `BuildNearList` — for every element (delimited by
`src_elem_nds_cnt`/`src_elem_nds_dsp` in the flat source-node arrays) the list
of (original index, coordinates) of its near targets, via the two-phase
coarse/fine filter. -/
def buildNearList {R : Type} [LinearOrderedCommRing R]
    (Xtrg Xsrc : List (List R)) (src_radius : List R) (cnts dsps : List ℕ) :
    List (List (ℕ × List R)) :=
  (cnts.zip dsps).map
    (fun cd => elemNearList (elemNodes Xsrc src_radius cd.2 cd.1) Xtrg.enum)

/-- Modelled from the spec: the naive reference algorithm for the near list —
directly test every (target, source-node) pair against the own cutoff radius of
that node, with no coarse phase. -/
def naiveNearList {R : Type} [LinearOrderedCommRing R]
    (Xtrg Xsrc : List (List R)) (src_radius : List R) (cnts dsps : List ℕ) :
    List (List (ℕ × List R)) :=
  (cnts.zip dsps).map
    (fun cd => Xtrg.enum.filter (fun tp => fineTest (elemNodes Xsrc src_radius cd.2 cd.1) tp.2))

/-- Modelled from the spec: exclusive prefix sum (the `scan` helper of `Tree`),
turning per-element counts into displacements. -/
def exclScan (l : List ℕ) : List ℕ :=
  (List.range l.length).map (fun i => (l.take i).sum)

/-- Modelled from the spec: `near_elem_cnt` — number of near targets of each
element. -/
def nearElemCnt {R : Type} [LinearOrderedCommRing R]
    (Xtrg Xsrc : List (List R)) (src_radius : List R) (cnts dsps : List ℕ) : List ℕ :=
  (buildNearList Xtrg Xsrc src_radius cnts dsps).map List.length

/-- Modelled from the spec: `near_elem_dsp` — offset of the first near target
of each element in the flat near-target output. -/
def nearElemDsp {R : Type} [LinearOrderedCommRing R]
    (Xtrg Xsrc : List (List R)) (src_radius : List R) (cnts dsps : List ℕ) : List ℕ :=
  exclScan (nearElemCnt Xtrg Xsrc src_radius cnts dsps)

/-- Modelled from the spec: `Xtrg_near` — the flat buffer of near-target
coordinates, element by element. -/
def XtrgNear {R : Type} [LinearOrderedCommRing R]
    (Xtrg Xsrc : List (List R)) (src_radius : List R) (cnts dsps : List ℕ) :
    List (List R) :=
  ((buildNearList Xtrg Xsrc src_radius cnts dsps).map (fun nl => nl.map Prod.snd)).flatten

/-- Modelled from the spec: the contiguous run of `near_elem_cnt[e]` targets
starting at `near_elem_dsp[e]` inside `Xtrg_near` — the near list of element
`e` as recorded in the flat output. -/
def nearRun {R : Type} [LinearOrderedCommRing R]
    (Xtrg Xsrc : List (List R)) (src_radius : List R) (cnts dsps : List ℕ) (e : ℕ) :
    List (List R) :=
  ((XtrgNear Xtrg Xsrc src_radius cnts dsps).drop
      ((nearElemDsp Xtrg Xsrc src_radius cnts dsps).getD e 0)).take
    ((nearElemCnt Xtrg Xsrc src_radius cnts dsps).getD e 0)

/- ===================== Tensor rotation (tensor.hpp) ====================== -/

/-- Modelled from the spec: a row-major multidimensional tensor — the list of
dimension extents together with the flat row-major data buffer.  The
implementation of `Tensor` is missing from the source tree; only the header
documentation of `RotateLeft` / `RotateRight` describes the operations. -/
structure RTensor (A : Type) where
  dims : List ℕ
  data : List A

/-- Modelled from the spec: the flat-buffer transpose taking the row-major
m x n matrix `l` to its row-major n x m transpose; entry (j, i) of the result
is entry (i, j) of the input. -/
def matTr {A : Type} (m n : ℕ) (d : A) (l : List A) : List A :=
  List.ofFn (fun k : Fin (n * m) => l.getD ((k.1 % m) * n + k.1 / m) d)

/-- Modelled from the spec: `Tensor::RotateLeft` — a tensor of dimensions
n1 x n2 x ... x nk becomes one of dimensions n2 x ... x nk x n1, the data
rearranged accordingly (the first axis moves to the back, which on the
row-major buffer is the transpose of an n1 x (n2*...*nk) matrix). -/
def RotateLeft {A : Type} (d : A) (T : RTensor A) : RTensor A :=
  match T.dims with
  | [] => T
  | n1 :: rest => ⟨rest ++ [n1], matTr n1 rest.prod d T.data⟩

/-- Modelled from the spec: `Tensor::RotateRight` — a tensor of dimensions
n1 x ... x n(k-1) x nk becomes one of dimensions nk x n1 x ... x n(k-1), the
data rearranged accordingly (the last axis moves to the front, the transpose
of an (n1*...*n(k-1)) x nk matrix on the row-major buffer). -/
def RotateRight {A : Type} (d : A) (T : RTensor A) : RTensor A :=
  match T.dims.reverse with
  | [] => T
  | nk :: revInit => ⟨nk :: revInit.reverse, matTr revInit.reverse.prod nk d T.data⟩

/- ===================== PtTree particle data (tree.hpp) =================== -/

/-- Modelled from the spec: the private state of `PtTree` — the name-keyed
maps `Nlocal` (local particle count per group), `pt_mid` (Morton indices per
group), `scatter_idx` (scatter permutation per group), `data_pt_name` (data
name to particle-group name), and the `node_data` storage of the base tree,
holding each dataset in the current tree-sorted order.  The implementation of
`PtTree` is missing from the source tree.  `std::map` lookups are embedded as
functions into `Option`. -/
structure PtTreeState (K A : Type) where
  Nlocal : K → Option ℕ
  pt_mid : K → Option (List ℕ)
  scatter_idx : K → Option (List ℕ)
  data_pt_name : K → Option K
  node_data : K → Option (List A)

/-- Modelled from the spec: the empty `PtTree`, no groups and no datasets. -/
def emptyPtTree {K A : Type} : PtTreeState K A :=
  ⟨fun _ => none, fun _ => none, fun _ => none, fun _ => none, fun _ => none⟩

/-- Modelled from the spec: truncate a coordinate in [0,1) to its maximum-depth
grid cell along one dimension (the per-dimension coordinate bits of the Morton
key at depth `L`). -/
def coordKey {R : Type} [LinearOrderedRing R] [FloorRing R] (L : ℕ) (x : R) : ℕ :=
  (⌊x * (2 : R) ^ L⌋).toNat

/-- Modelled from the spec: bit interleaving of the per-dimension cell indices,
most significant level first — the locality-preserving Morton sort key. -/
def interleave (L : ℕ) (cs : List ℕ) : ℕ :=
  (List.range L).foldl
    (fun acc lvl => cs.foldl (fun a c => a * 2 + (c / 2 ^ (L - 1 - lvl)) % 2) acc) 0

/-- Modelled from the spec: the maximum-depth Morton key of a point. -/
def mortonKey {R : Type} [LinearOrderedRing R] [FloorRing R] (L : ℕ) (p : List R) : ℕ :=
  interleave L (p.map (coordKey L))

/-- Modelled from the spec: the comparison used by the distributed stable sort
of Morton keys — compare keys, break ties by the original index, so that the
order on (key, index) pairs is total. -/
def midLe (mids : List ℕ) (i j : ℕ) : Bool :=
  decide (mids.getD i 0 < mids.getD j 0) ||
    (decide (mids.getD i 0 = mids.getD j 0) && decide (i ≤ j))

/-- Modelled from the spec: the scatter permutation of one particle group —
the distributed stable sort (with index tie-break) of the group Morton keys,
as the list of original indices in tree-sorted order. -/
def sortPerm (mids : List ℕ) : List ℕ :=
  List.insertionSort (fun i j => midLe mids i j = true) (List.range mids.length)

/-- Modelled from the spec: `Comm::ScatterForward` — rearrange `data` from the
original insertion order into tree-sorted order along the permutation `idx`
(slot `i` of the result holds the entry of original index `idx[i]`). -/
def scatterForward {A : Type} (idx : List ℕ) (d : A) (data : List A) : List A :=
  idx.map (fun i => data.getD i d)

/-- Modelled from the spec: `Comm::ScatterReverse` — the inverse rearrangement,
taking tree-sorted data back to the original insertion order of the `n`
particles. -/
def scatterBackward {A : Type} (n : ℕ) (idx : List ℕ) (d : A) (data : List A) : List A :=
  (List.range n).map (fun j => data.getD (List.indexOf j idx) d)

/-- Modelled from the spec: `PtTree::AddParticles` — store the group size,
compute the maximum-depth Morton keys of the coordinates, and derive the
scatter permutation of the group by the stable key sort. -/
def AddParticles {K R A : Type} [DecidableEq K] [LinearOrderedRing R] [FloorRing R]
    (L : ℕ) (name : K) (coord : List (List R)) (s : PtTreeState K A) : PtTreeState K A :=
  { s with
    Nlocal := fun p => if p = name then some coord.length else s.Nlocal p
    pt_mid := fun p => if p = name then some (coord.map (mortonKey L)) else s.pt_mid p
    scatter_idx := fun p =>
      if p = name then some (sortPerm (coord.map (mortonKey L))) else s.scatter_idx p }

/-- Modelled from the spec: `PtTree::AddParticleData` — associate the dataset
with its particle group and store the values scattered into the tree-sorted
order of that group; a name never registered is a hard precondition failure,
embedded as leaving the state unchanged. -/
def AddParticleData {K A : Type} [DecidableEq K]
    (d : A) (data_name particle_name : K) (data : List A) (s : PtTreeState K A) :
    PtTreeState K A :=
  match s.scatter_idx particle_name with
  | none => s
  | some idx =>
    { s with
      data_pt_name := fun q => if q = data_name then some particle_name else s.data_pt_name q
      node_data := fun q =>
        if q = data_name then some (scatterForward idx d data) else s.node_data q }

/-- Modelled from the spec: `PtTree::UpdateRefinement` — refine the base tree
from the supplied coordinates, then for every existing group recompute the
scatter permutation from its Morton keys by the stable distributed sort, and
repartition every stored dataset to the new tree order (gather it back through
the old permutation of its group and scatter it through the new one).  The
embedding is serial (`Comm::Self`), so the driving coordinates affect only the
base tree, not the per-group permutations. -/
def UpdateRefinement {K R A : Type} [DecidableEq K] [LinearOrderedRing R] [FloorRing R]
    (L : ℕ) (coord : List (List R)) (d : A) (s : PtTreeState K A) : PtTreeState K A :=
  { s with
    scatter_idx := fun p => (s.pt_mid p).map sortPerm
    node_data := fun q =>
      match s.node_data q, s.data_pt_name q with
      | some stored, some p =>
        match s.scatter_idx p, s.Nlocal p, s.pt_mid p with
        | some idxOld, some n, some mids =>
          some (scatterForward (sortPerm mids) d (scatterBackward n idxOld d stored))
        | _, _, _ => some stored
      | some stored, none => some stored
      | none, _ => none }

/-- Modelled from the spec: `PtTree::GetParticleData` — look up the particle
group of the dataset and apply the inverse scatter permutation, so the values
come back in the original insertion order; a missing name yields no result. -/
def GetParticleData {K A : Type} [DecidableEq K]
    (d : A) (s : PtTreeState K A) (data_name : K) : Option (List A) :=
  match s.data_pt_name data_name with
  | none => none
  | some p =>
    match s.scatter_idx p, s.Nlocal p, s.node_data data_name with
    | some idx, some n, some stored => some (scatterBackward n idx d stored)
    | _, _, _ => none

/-- Modelled from the spec: `PtTree::DeleteParticleData` — remove the dataset
of the given name (its stored values and its group association); groups are
independently keyed by name, so nothing else is touched. -/
def DeleteParticleData {K A : Type} [DecidableEq K]
    (data_name : K) (s : PtTreeState K A) : PtTreeState K A :=
  { s with
    data_pt_name := fun q => if q = data_name then none else s.data_pt_name q
    node_data := fun q => if q = data_name then none else s.node_data q }

/-- Modelled from the spec: the invariant tracked through refinements for one
dataset `dn` attached to group `g` — the group maps hold the keys `mids`, the
count `n`, the stable-sort permutation of `mids`, and the dataset holds `data`
scattered into tree order. -/
def TrackInv {K A : Type} (g dn : K) (mids : List ℕ) (n : ℕ) (d : A) (data : List A)
    (st : PtTreeState K A) : Prop :=
  st.data_pt_name dn = some g ∧ st.pt_mid g = some mids ∧ st.Nlocal g = some n ∧
    st.scatter_idx g = some (sortPerm mids) ∧
    st.node_data dn = some (scatterForward (sortPerm mids) d data)

/- ============== Tree::UpdateRefinement leaf structure (tree.hpp) ========= -/

/-- Modelled from the spec: the child slot of a maximum-depth box key `k` at
`d` remaining levels — base-`B` digit of `k` at that position (`B = 2^DIM`
children per box). -/
def boxDigit (B d k : ℕ) : ℕ := (k / B ^ d) % B

/-- Modelled from the spec: the leaf decomposition computed by the refinement
step of `Tree::UpdateRefinement` — starting from all point keys in one box,
a box with at most `M` points (or an empty box) stays a leaf and is not
refined further; an overfull box above the maximum depth is split into its
`B` children; a box at maximum depth (no remaining levels) is accepted as a
leaf regardless of its count.  Each leaf is recorded with its number of
remaining levels and its point keys.  The implementation of
`Tree::UpdateRefinement` is missing from the source tree. -/
def refineLeaves (B M : ℕ) : ℕ → List ℕ → List (ℕ × List ℕ)
  | 0, pts => [(0, pts)]
  | d + 1, pts =>
    if pts.length ≤ M then [(d + 1, pts)]
    else (List.range B).flatMap
      (fun c => refineLeaves B M d (pts.filter (fun k => boxDigit B d k == c)))

/- ===================== 2:1 balance refinement (tree.hpp) ================= -/

/-- Modelled from the spec: spatial adjacency of two leaf boxes of the 1-d
binary instance of the dimension-generic tree — a box is the pair (level,
index), occupying the dyadic interval from `index / 2^level` to
`(index + 1) / 2^level`, and two boxes are adjacent when the closed intervals
touch (cross-scaled to avoid fractions). -/
def boxAdjacent (b1 b2 : ℕ × ℕ) : Bool :=
  decide (b1.2 * 2 ^ b2.1 ≤ (b2.2 + 1) * 2 ^ b1.1 ∧
          b2.2 * 2 ^ b1.1 ≤ (b1.2 + 1) * 2 ^ b2.1)

/-- Modelled from the spec: a leaf violates the level restriction when some
adjacent leaf is at least two levels deeper. -/
def boxViolates (r : List (ℕ × ℕ)) (b : ℕ × ℕ) : Bool :=
  r.any (fun c => boxAdjacent b c && decide (b.1 + 2 ≤ c.1))

/-- Modelled from the spec: the global fixed-point test of the balance
iteration — true while some leaf still violates the level restriction
(the collective reduction of "any process refined this round"). -/
def hasViolation (r : List (ℕ × ℕ)) : Bool := r.any (boxViolates r)

/-- Modelled from the spec: one round of the balance iteration — every leaf
with an adjacent leaf at least two levels deeper is split into its two
children, propagating refinement to neighboring boxes. -/
def balanceStep (r : List (ℕ × ℕ)) : List (ℕ × ℕ) :=
  r.flatMap (fun b =>
    if boxViolates r b then [(b.1 + 1, 2 * b.2), (b.1 + 1, 2 * b.2 + 1)] else [b])

/-- Modelled from the spec: the 2:1 balance fixed-point iteration of
`Tree::UpdateRefinement` with `balance21` — repeat the propagation round until
no leaf violates the level restriction; when the bounded number of rounds is
exhausted before the fixed point is reached, the nonconvergence is surfaced as
an explicit error (`none`) instead of returning an unbalanced tree. -/
def balance21 : ℕ → List (ℕ × ℕ) → Option (List (ℕ × ℕ))
  | fuel, r =>
    if hasViolation r then
      match fuel with
      | 0 => none
      | f + 1 => balance21 f (balanceStep r)
    else some r

/- ============== Stable distributed sort determinism (tree.hpp) =========== -/

/-- Modelled from the spec: the strict (key, original index) lexicographic
order underlying the stable distributed sort with index tie-break. -/
def keyIdxLt (p q : ℕ × ℕ) : Prop := p.1 < q.1 ∨ (p.1 = q.1 ∧ p.2 < q.2)

instance keyIdxLt.decRel : DecidableRel keyIdxLt := fun p q => by
  unfold keyIdxLt; exact inferInstance

/-- Modelled from the spec: the (key, original index) sequence produced by a
candidate output permutation `f` of the distributed sort on the keys `mids`. -/
def outKeys (mids : List ℕ) (f : List ℕ) : List (ℕ × ℕ) :=
  f.map (fun i => (mids.getD i 0, i))

/-- Modelled from the spec: what it means for a permutation to be a correct
output of the stable distributed sort with index tie-break on the keys
`mids` — it is a permutation of all original indices and its (key, index)
sequence is strictly increasing in the lexicographic order. -/
def IsStableSortPerm (mids : List ℕ) (f : List ℕ) : Prop :=
  f.Perm (List.range mids.length) ∧ List.Pairwise keyIdxLt (outKeys mids f)

instance IsStableSortPerm.dec (mids f : List ℕ) : Decidable (IsStableSortPerm mids f) := by
  unfold IsStableSortPerm; exact instDecidableAnd

/- ======================= Theorems: near list (C1, C3) ==================== -/

theorem mem_le_foldr_max {R : Type} [LinearOrderedCommRing R]
    (x : R) (init : R) (l : List R) (hx : x ∈ l) : x ≤ l.foldr max init := by
  induction l with
  | nil => cases hx
  | cons a t ih =>
    rcases List.mem_cons.mp hx with h | h
    · subst h; exact le_max_left _ _
    · exact le_trans (ih h) (le_max_right _ _)

theorem fineTest_imp_coarseTest {R : Type} [LinearOrderedCommRing R]
    (nds : List (List R × R)) (t : List R) (hf : fineTest nds t = true) :
    coarseTest nds t = true := by
  rcases List.any_eq_true.mp hf with ⟨sr, hmem, hsr⟩
  rcases of_decide_eq_true hsr with ⟨hr, hd⟩
  have hle : sr.2 ≤ maxRadius nds :=
    mem_le_foldr_max _ _ _ (List.mem_map.mpr ⟨sr, hmem, rfl⟩)
  refine List.any_eq_true.mpr ⟨sr, hmem, decide_eq_true ?_⟩
  refine ⟨lt_of_lt_of_le hr hle, lt_of_lt_of_le hd ?_⟩
  exact mul_le_mul hle hle (le_of_lt hr) (le_trans (le_of_lt hr) hle)

theorem elemNearList_eq_fine_filter {R : Type} [LinearOrderedCommRing R]
    (nds : List (List R × R)) (trgs : List (ℕ × List R)) :
    elemNearList nds trgs = trgs.filter (fun tp => fineTest nds tp.2) := by
  unfold elemNearList
  rw [List.filter_filter]
  refine List.filter_congr ?_
  intro tp _
  cases hf : fineTest nds tp.2 with
  | false => simp
  | true => simp [fineTest_imp_coarseTest nds tp.2 hf]

/-- C3: the two-phase near-list algorithm (coarse filter by the maximum node
radius of the element over the spatial index, then the fine per-node distance
test) computes exactly the same per-element near-target lists — hence the same
set of (element, near-target) pairs — as the naive reference algorithm that
tests every (target, source-node) pair against the own cutoff of the node. -/
theorem twoPhase_eq_naive {R : Type} [LinearOrderedCommRing R]
    (Xtrg Xsrc : List (List R)) (src_radius : List R) (cnts dsps : List ℕ) :
    buildNearList Xtrg Xsrc src_radius cnts dsps =
      naiveNearList Xtrg Xsrc src_radius cnts dsps := by
  unfold buildNearList naiveNearList
  refine List.map_congr_left ?_
  intro cd _
  exact elemNearList_eq_fine_filter _ _

theorem flatten_drop_take {A : Type} (Ls : List (List A)) (e : ℕ) (he : e < Ls.length) :
    ((Ls.flatten).drop (((Ls.map List.length).take e).sum)).take (Ls.getD e []).length
      = Ls.getD e [] := by
  induction Ls generalizing e with
  | nil => cases he
  | cons L Ls ih =>
    cases e with
    | zero =>
      simp only [List.take_zero, List.sum_nil, List.drop_zero, List.getD_cons_zero,
        List.flatten_cons]
      exact List.take_left L Ls.flatten
    | succ e =>
      have he' : e < Ls.length := Nat.lt_of_succ_lt_succ he
      simp only [List.map_cons, List.take_succ_cons, List.sum_cons, List.getD_cons_succ,
        List.flatten_cons, List.drop_append]
      exact ih e he'

theorem exclScan_getD (l : List ℕ) (e : ℕ) (he : e < l.length) :
    (exclScan l).getD e 0 = (l.take e).sum := by
  unfold exclScan
  rw [List.getD_eq_getElem _ _ (by simpa using he), List.getElem_map, List.getElem_range]

theorem nearRun_eq_map_snd {R : Type} [LinearOrderedCommRing R]
    (Xtrg Xsrc : List (List R)) (src_radius : List R) (cnts dsps : List ℕ) (e : ℕ)
    (he1 : e < cnts.length) (he2 : e < dsps.length) :
    nearRun Xtrg Xsrc src_radius cnts dsps e =
      ((buildNearList Xtrg Xsrc src_radius cnts dsps).getD e []).map Prod.snd := by
  have hez : e < (cnts.zip dsps).length := by
    rw [List.length_zip]; exact lt_min he1 he2
  have heb : e < (buildNearList Xtrg Xsrc src_radius cnts dsps).length := by
    unfold buildNearList; simpa using hez
  set NL := buildNearList Xtrg Xsrc src_radius cnts dsps with hNL
  set Ls : List (List (List R)) := NL.map (fun nl => nl.map Prod.snd) with hLs
  have hel : e < Ls.length := by simpa [hLs] using heb
  have hlen : Ls.map List.length = nearElemCnt Xtrg Xsrc src_radius cnts dsps := by
    simp [hLs, nearElemCnt, ← hNL, List.map_map, Function.comp_def]
  have hgd : Ls.getD e [] = (NL.getD e []).map Prod.snd := by
    rw [List.getD_eq_getElem _ _ hel, List.getD_eq_getElem _ _ heb, List.getElem_map]
  have hcnt : (nearElemCnt Xtrg Xsrc src_radius cnts dsps).getD e 0
      = (Ls.getD e []).length := by
    rw [← hlen, List.getD_eq_getElem _ _ (by simpa using hel), List.getElem_map,
      List.getD_eq_getElem _ _ hel]
  have hdsp : (nearElemDsp Xtrg Xsrc src_radius cnts dsps).getD e 0
      = ((Ls.map List.length).take e).sum := by
    unfold nearElemDsp
    rw [exclScan_getD _ _ (by simp [nearElemCnt, ← hNL]; simpa [hLs] using hel), hlen]
  unfold nearRun XtrgNear
  rw [← hNL, ← hLs, hcnt, hdsp, flatten_drop_take Ls e hel, hgd]

theorem fineTest_iff {R : Type} [LinearOrderedCommRing R]
    (nds : List (List R × R)) (t : List R) :
    fineTest nds t = true ↔ ∃ sr ∈ nds, 0 < sr.2 ∧ dist2 t sr.1 < sr.2 * sr.2 := by
  unfold fineTest
  rw [List.any_eq_true]
  constructor
  · rintro ⟨sr, hm, hd⟩; exact ⟨sr, hm, of_decide_eq_true hd⟩
  · rintro ⟨sr, hm, hd⟩; exact ⟨sr, hm, decide_eq_true hd⟩

/-- C1: a target appears in the contiguous run of `near_elem_cnt[e]` targets
starting at `near_elem_dsp[e]` inside `Xtrg_near` (the output near list of
element `e`) if and only if its Euclidean distance to some source node of the
element, delimited by `src_elem_nds_cnt`/`src_elem_nds_dsp`, is below the own
cutoff radius of that node; in particular the final output contains no false
positives. -/
theorem buildNearList_mem_iff {R : Type} [LinearOrderedCommRing R]
    (Xtrg Xsrc : List (List R)) (src_radius : List R) (cnts dsps : List ℕ) (e t : ℕ)
    (he1 : e < cnts.length) (he2 : e < dsps.length) (ht : t < Xtrg.length) :
    Xtrg.getD t [] ∈ nearRun Xtrg Xsrc src_radius cnts dsps e ↔
      ∃ sr ∈ elemNodes Xsrc src_radius (dsps.getD e 0) (cnts.getD e 0),
        0 < sr.2 ∧ dist2 (Xtrg.getD t []) sr.1 < sr.2 * sr.2 := by
  have hez : e < (cnts.zip dsps).length := by
    rw [List.length_zip]; exact lt_min he1 he2
  set nds := elemNodes Xsrc src_radius (dsps.getD e 0) (cnts.getD e 0) with hnds
  have hbuild : (buildNearList Xtrg Xsrc src_radius cnts dsps).getD e []
      = elemNearList nds Xtrg.enum := by
    unfold buildNearList
    rw [List.getD_eq_getElem _ _ (by simpa using hez), List.getElem_map, List.getElem_zip]
    rw [hnds, List.getD_eq_getElem _ _ he2, List.getD_eq_getElem _ _ he1]
  rw [nearRun_eq_map_snd Xtrg Xsrc src_radius cnts dsps e he1 he2, hbuild,
    elemNearList_eq_fine_filter]
  constructor
  · intro hmem
    rcases List.mem_map.mp hmem with ⟨tp, htp, hsnd⟩
    have hf : fineTest nds tp.2 = true := (List.mem_filter.mp htp).2
    rw [hsnd] at hf
    exact (fineTest_iff nds _).mp hf
  · intro hex
    have hf : fineTest nds (Xtrg.getD t []) = true := (fineTest_iff nds _).mpr hex
    have htmem : (t, Xtrg.getD t []) ∈ Xtrg.enum := by
      rw [List.getD_eq_getElem _ _ ht]
      have hte : t < Xtrg.enum.length := by simpa using ht
      have : Xtrg.enum[t] = (t, Xtrg[t]) := List.getElem_enum _ _ _
      rw [← this]; exact List.getElem_mem _
    refine List.mem_map.mpr ⟨(t, Xtrg.getD t []), List.mem_filter.mpr ⟨htmem, hf⟩, rfl⟩

/- ======================= Theorems: tensor rotation (C10) ================= -/

theorem length_matTr {A : Type} (m n : ℕ) (d : A) (l : List A) :
    (matTr m n d l).length = n * m := by
  unfold matTr; exact List.length_ofFn _

theorem matTr_matTr {A : Type} (m n : ℕ) (d : A) (l : List A) (h : l.length = m * n) :
    matTr n m d (matTr m n d l) = l := by
  refine List.ext_getElem (by rw [length_matTr, h]) ?_
  intro k h1 h2
  have hk : k < m * n := by rwa [h] at h2
  have hn : 0 < n := by
    rcases Nat.eq_zero_or_pos n with h0 | h0
    · subst h0; simp at hk
    · exact h0
  have hm : 0 < m := by
    rcases Nat.eq_zero_or_pos m with h0 | h0
    · subst h0; simp at hk
    · exact h0
  have hi : k / n < m := (Nat.div_lt_iff_lt_mul hn).mpr hk
  have hj : k % n < n := Nat.mod_lt _ hn
  have hidx1 : (k % n) * m + k / n < n * m := by
    calc (k % n) * m + k / n < (k % n) * m + m := Nat.add_lt_add_left hi _
    _ = (k % n + 1) * m := by ring
    _ ≤ n * m := Nat.mul_le_mul_right _ (Nat.succ_le_of_lt hj)
  unfold matTr
  rw [List.getElem_ofFn]
  have hlen1 : ((List.ofFn fun k : Fin (n * m) =>
      l.getD ((k.1 % m) * n + k.1 / m) d)).length = n * m := List.length_ofFn _
  rw [List.getD_eq_getElem _ _ (by rw [hlen1]; exact hidx1), List.getElem_ofFn]
  have e1 : ((k % n) * m + k / n) % m = k / n := by
    rw [Nat.mul_comm (k % n) m, Nat.add_comm, Nat.add_mul_mod_self_left]
    exact Nat.mod_eq_of_lt hi
  have e2 : ((k % n) * m + k / n) / m = k % n := by
    rw [Nat.add_comm, Nat.add_mul_div_right _ _ hm, Nat.div_eq_of_lt hi, Nat.zero_add]
  have e3 : (((k % n) * m + k / n) % m) * n + ((k % n) * m + k / n) / m = k := by
    rw [e1, e2]
    have := Nat.div_add_mod k n
    calc (k / n) * n + k % n = n * (k / n) + k % n := by ring_nf
    _ = k := Nat.div_add_mod k n
  rw [e3, List.getD_eq_getElem _ _ h2]

theorem rotateRight_rotateLeft {A : Type} (d : A) (ds : List ℕ) (l : List A)
    (h : l.length = ds.prod) :
    RotateRight d (RotateLeft d (RTensor.mk ds l)) = RTensor.mk ds l := by
  cases ds with
  | nil => rfl
  | cons n1 rest =>
    show RotateRight d (RTensor.mk (rest ++ [n1]) (matTr n1 rest.prod d l)) = _
    unfold RotateRight
    simp only [List.reverse_append, List.reverse_cons, List.reverse_nil, List.nil_append,
      List.singleton_append, List.reverse_reverse]
    rw [matTr_matTr n1 rest.prod d l (by simpa [List.prod_cons] using h)]

theorem rotateLeft_rotateRight {A : Type} (d : A) (ds : List ℕ) (l : List A)
    (h : l.length = ds.prod) :
    RotateLeft d (RotateRight d (RTensor.mk ds l)) = RTensor.mk ds l := by
  rcases List.eq_nil_or_concat ds with h0 | ⟨init, nk, hds⟩
  · subst h0; rfl
  · subst hds
    simp only [List.concat_eq_append] at h ⊢
    show RotateLeft d (RotateRight d (RTensor.mk (init ++ [nk]) l)) = _
    unfold RotateRight
    simp only [List.reverse_append, List.reverse_cons, List.reverse_nil, List.nil_append,
      List.singleton_append, List.reverse_reverse]
    show RotateLeft d (RTensor.mk (nk :: init) (matTr init.prod nk d l)) = _
    unfold RotateLeft
    show RTensor.mk (init ++ [nk]) (matTr nk init.prod d (matTr init.prod nk d l)) = _
    rw [matTr_matTr init.prod nk d l
      (by simpa [List.prod_append, List.prod_cons] using h)]

/-- C10: for every tensor whose flat row-major buffer matches its dimensions,
`RotateRight` is the inverse of `RotateLeft`: rotating the dimensions left and
then right (and symmetrically right and then left) returns a tensor with the
same dimensions and the same data, elementwise. -/
theorem rotate_left_right_inverse {A : Type} (d : A) (T : RTensor A)
    (h : T.data.length = T.dims.prod) :
    RotateRight d (RotateLeft d T) = T ∧ RotateLeft d (RotateRight d T) = T := by
  cases T with
  | mk ds l => exact ⟨rotateRight_rotateLeft d ds l h, rotateLeft_rotateRight d ds l h⟩

/-- C10 witness: the round trip evaluated on a concrete 2 x 3 tensor. -/
theorem rotate_left_right_inverse_witness :
    (RTensor.mk [2, 3] [10, 20, 30, 40, 50, 60] : RTensor ℕ).data.length
        = (RTensor.mk [2, 3] [10, 20, 30, 40, 50, 60] : RTensor ℕ).dims.prod ∧
      RotateRight 0 (RotateLeft 0 (RTensor.mk [2, 3] [10, 20, 30, 40, 50, 60] : RTensor ℕ))
          = RTensor.mk [2, 3] [10, 20, 30, 40, 50, 60] ∧
      RotateLeft 0 (RotateRight 0 (RTensor.mk [2, 3] [10, 20, 30, 40, 50, 60] : RTensor ℕ))
          = RTensor.mk [2, 3] [10, 20, 30, 40, 50, 60] := by
  refine ⟨by decide, ?_, ?_⟩
  · exact (rotate_left_right_inverse 0 _ (by decide)).1
  · exact (rotate_left_right_inverse 0 _ (by decide)).2

/- =================== Theorems: PtTree data round trip (C2) =============== -/

theorem sortPerm_perm (mids : List ℕ) : (sortPerm mids).Perm (List.range mids.length) :=
  List.perm_insertionSort _ _

theorem scatter_roundtrip {A : Type} (idx : List ℕ) (d : A) (data : List A)
    (hp : idx.Perm (List.range data.length)) :
    scatterBackward data.length idx d (scatterForward idx d data) = data := by
  refine List.ext_getElem (by simp [scatterBackward]) ?_
  intro j h1 h2
  have hj : j < data.length := h2
  have hjmem : j ∈ idx := hp.mem_iff.mpr (List.mem_range.mpr hj)
  have hidx : List.indexOf j idx < idx.length := List.indexOf_lt_length.mpr hjmem
  unfold scatterBackward scatterForward
  rw [List.getElem_map, List.getElem_range,
    List.getD_eq_getElem _ _ (by simpa using hidx), List.getElem_map,
    List.getElem_indexOf hidx, List.getD_eq_getElem _ _ hj]

theorem trackInv_add {K R A : Type} [DecidableEq K] [LinearOrderedRing R] [FloorRing R]
    (s : PtTreeState K A) (L : ℕ) (g dn : K) (coord : List (List R)) (data : List A)
    (d : A) :
    TrackInv g dn (coord.map (mortonKey L)) coord.length d data
      (AddParticleData d dn g data (AddParticles L g coord s)) := by
  have hsc : (AddParticles L g coord s).scatter_idx g
      = some (sortPerm (coord.map (mortonKey L))) := by
    simp [AddParticles]
  refine ⟨?_, ?_, ?_, ?_, ?_⟩ <;>
    simp [AddParticleData, hsc, AddParticles, TrackInv]

theorem trackInv_update {K R A : Type} [DecidableEq K] [LinearOrderedRing R] [FloorRing R]
    (st : PtTreeState K A) (L : ℕ) (c : List (List R)) (g dn : K) (mids : List ℕ)
    (d : A) (data : List A) (hn : mids.length = data.length)
    (hInv : TrackInv g dn mids data.length d data st) :
    TrackInv g dn mids data.length d data (UpdateRefinement L c d st) := by
  rcases hInv with ⟨h1, h2, h3, h4, h5⟩
  have hrt : scatterBackward data.length (sortPerm mids) d
      (scatterForward (sortPerm mids) d data) = data :=
    scatter_roundtrip _ d data (by rw [← hn]; exact sortPerm_perm mids)
  refine ⟨?_, ?_, ?_, ?_, ?_⟩ <;>
    simp [UpdateRefinement, h1, h2, h3, h4, h5, hrt]

theorem trackInv_get {K A : Type} [DecidableEq K]
    (st : PtTreeState K A) (g dn : K) (mids : List ℕ) (d : A) (data : List A)
    (hn : mids.length = data.length)
    (hInv : TrackInv g dn mids data.length d data st) :
    GetParticleData d st dn = some data := by
  rcases hInv with ⟨h1, h2, h3, h4, h5⟩
  have hrt : scatterBackward data.length (sortPerm mids) d
      (scatterForward (sortPerm mids) d data) = data :=
    scatter_roundtrip _ d data (by rw [← hn]; exact sortPerm_perm mids)
  simp [GetParticleData, h1, h2, h3, h4, h5, hrt]

theorem trackInv_foldl {K R A : Type} [DecidableEq K] [LinearOrderedRing R] [FloorRing R]
    (refinements : List (List (List R))) (st : PtTreeState K A) (L : ℕ) (g dn : K)
    (mids : List ℕ) (d : A) (data : List A) (hn : mids.length = data.length)
    (hInv : TrackInv g dn mids data.length d data st) :
    TrackInv g dn mids data.length d data
      (refinements.foldl (fun acc c => UpdateRefinement L c d acc) st) := by
  induction refinements generalizing st with
  | nil => exact hInv
  | cons c cs ih =>
    exact ih _ (trackInv_update st L c g dn mids d data hn hInv)

/-- C2: for every particle group added by `PtTree::AddParticles` and every
dataset attached to it by `PtTree::AddParticleData`, after any number of
intervening `PtTree::UpdateRefinement` calls (each of which recomputes the
scatter permutations and repartitions the stored data to the new tree order),
`PtTree::GetParticleData` returns the dataset element-for-element equal to the
originally supplied data, in the original insertion order. -/
theorem getParticleData_roundtrip {K R A : Type} [DecidableEq K] [LinearOrderedRing R]
    [FloorRing R] (s : PtTreeState K A) (L : ℕ) (g dn : K) (coord : List (List R))
    (data : List A) (d : A) (refinements : List (List (List R)))
    (hlen : data.length = coord.length) :
    GetParticleData d
      (refinements.foldl (fun st c => UpdateRefinement L c d st)
        (AddParticleData d dn g data (AddParticles L g coord s))) dn = some data := by
  have hn : (coord.map (mortonKey L)).length = data.length := by
    rw [List.length_map, hlen]
  have h0 : TrackInv g dn (coord.map (mortonKey L)) data.length d data
      (AddParticleData d dn g data (AddParticles L g coord s)) := by
    rw [hlen]; exact trackInv_add s L g dn coord data d
  exact trackInv_get _ g dn _ d data hn
    (trackInv_foldl refinements _ L g dn _ d data hn h0)

/-- C2 witness: the round trip evaluated on a concrete two-particle group with
one intervening refinement. -/
theorem getParticleData_roundtrip_witness :
    ([10, 20] : List ℕ).length = ([[0], [1]] : List (List ℤ)).length ∧
      GetParticleData 0
        (([[[0], [1]]] : List (List (List ℤ))).foldl (fun st c => UpdateRefinement 1 c 0 st)
          (AddParticleData 0 2 5 [10, 20]
            (AddParticles 1 5 ([[0], [1]] : List (List ℤ)) (emptyPtTree : PtTreeState ℕ ℕ)))) 2
        = some [10, 20] :=
  ⟨rfl, getParticleData_roundtrip emptyPtTree 1 5 2 ([[0], [1]] : List (List ℤ)) [10, 20] 0
    ([[[0], [1]]] : List (List (List ℤ))) rfl⟩

/- =================== Theorems: delete frame property (C9) ================ -/

/-- C9: deleting the dataset named `n1` by `PtTree::DeleteParticleData` leaves
everything reachable under any other name `n2` unchanged — the local count,
Morton keys and scatter permutation of the group named `n2`, the stored data
of the dataset named `n2`, and the result of `PtTree::GetParticleData` on
`n2`. -/
theorem deleteParticleData_frame {K A : Type} [DecidableEq K]
    (s : PtTreeState K A) (d : A) (n1 n2 : K) (h : n1 ≠ n2) :
    (DeleteParticleData n1 s).Nlocal n2 = s.Nlocal n2 ∧
      (DeleteParticleData n1 s).pt_mid n2 = s.pt_mid n2 ∧
      (DeleteParticleData n1 s).scatter_idx n2 = s.scatter_idx n2 ∧
      (DeleteParticleData n1 s).node_data n2 = s.node_data n2 ∧
      GetParticleData d (DeleteParticleData n1 s) n2 = GetParticleData d s n2 := by
  have hne : ¬ (n2 = n1) := fun hne => h hne.symm
  refine ⟨rfl, rfl, rfl, by simp [DeleteParticleData, hne], ?_⟩
  simp only [GetParticleData, DeleteParticleData, if_neg hne]

/-- C9 witness: deletion of one dataset evaluated on a concrete state holding
two datasets on one group. -/
theorem deleteParticleData_frame_witness :
    (0 : ℕ) ≠ (1 : ℕ) ∧
      ((DeleteParticleData 0 (AddParticleData 0 1 5 [7, 8]
          (AddParticles 1 5 ([[0], [1]] : List (List ℤ)) (emptyPtTree : PtTreeState ℕ ℕ)))).node_data 1
        = (AddParticleData 0 1 5 [7, 8]
            (AddParticles 1 5 ([[0], [1]] : List (List ℤ)) (emptyPtTree : PtTreeState ℕ ℕ))).node_data 1) ∧
      GetParticleData 0 (DeleteParticleData 0 (AddParticleData 0 1 5 [7, 8]
          (AddParticles 1 5 ([[0], [1]] : List (List ℤ)) (emptyPtTree : PtTreeState ℕ ℕ)))) 1
        = GetParticleData 0 (AddParticleData 0 1 5 [7, 8]
            (AddParticles 1 5 ([[0], [1]] : List (List ℤ)) (emptyPtTree : PtTreeState ℕ ℕ))) 1 := by
  refine ⟨by decide, ?_, ?_⟩
  · exact (deleteParticleData_frame _ 0 0 1 (by decide)).2.2.2.1
  · exact (deleteParticleData_frame _ 0 0 1 (by decide)).2.2.2.2

/- ============ Theorems: refinement leaf capacity and termination ========= -/

theorem refineLeaves_depth_pos_le (B M : ℕ) :
    ∀ (L : ℕ) (pts : List ℕ) (dp : ℕ) (lp : List ℕ),
      (dp, lp) ∈ refineLeaves B M L pts → 0 < dp → lp.length ≤ M := by
  intro L
  induction L with
  | zero =>
    intro pts dp lp hmem hdp
    rcases List.mem_singleton.mp hmem with h
    cases h; cases hdp
  | succ d ih =>
    intro pts dp lp hmem hdp
    by_cases hle : pts.length ≤ M
    · rw [refineLeaves, if_pos hle] at hmem
      rcases List.mem_singleton.mp hmem with h
      cases h; exact hle
    · rw [refineLeaves, if_neg hle] at hmem
      rcases List.mem_flatMap.mp hmem with ⟨c, _, hrec⟩
      exact ih _ dp lp hrec hdp

theorem indicator_sum (v : ℕ) (cs : List ℕ) (hnd : cs.Nodup) (hv : v ∈ cs) :
    (cs.map (fun c => if v = c then (1 : ℕ) else 0)).sum = 1 := by
  induction cs with
  | nil => cases hv
  | cons c cs ih =>
    rcases List.nodup_cons.mp hnd with ⟨hc, hnd2⟩
    rcases List.mem_cons.mp hv with h | h
    · subst h
      simp only [List.map_cons, List.sum_cons, if_pos rfl]
      have hz : (cs.map (fun x => if v = x then (1 : ℕ) else 0)).sum = 0 := by
        refine List.sum_eq_zero ?_
        intro x hx
        rcases List.mem_map.mp hx with ⟨y, hy, hxy⟩
        have : v ≠ y := fun hvy => hc (hvy ▸ hy)
        rw [← hxy, if_neg this]
      rw [hz]
      simp
    · have hvc : v ≠ c := fun hvc => hc (hvc ▸ h)
      simp only [List.map_cons, List.sum_cons, if_neg hvc, Nat.zero_add]
      exact ih hnd2 h

theorem filter_digit_sum (B d : ℕ) (hB : 0 < B) (pts : List ℕ) :
    ((List.range B).map
        (fun c => (pts.filter (fun k => boxDigit B d k == c)).length)).sum
      = pts.length := by
  induction pts with
  | nil => simp
  | cons k tl ih =>
    have hmem : boxDigit B d k ∈ List.range B :=
      List.mem_range.mpr (Nat.mod_lt _ hB)
    have hstep : ∀ c ∈ List.range B,
        ((k :: tl).filter (fun x => boxDigit B d x == c)).length
          = (if boxDigit B d k = c then (1 : ℕ) else 0)
              + (tl.filter (fun x => boxDigit B d x == c)).length := by
      intro c _
      rw [List.filter_cons]
      by_cases h : boxDigit B d k = c
      · simp [h, Nat.add_comm]
      · simp [h]
    rw [List.map_congr_left hstep, List.sum_map_add,
      indicator_sum _ _ (List.nodup_range B) hmem, ih]
    simp [Nat.add_comm]

theorem refineLeaves_sum (B M : ℕ) (hB : 0 < B) :
    ∀ (L : ℕ) (pts : List ℕ),
      ((refineLeaves B M L pts).map (fun e => e.2.length)).sum = pts.length := by
  intro L
  induction L with
  | zero => intro pts; simp [refineLeaves]
  | succ d ih =>
    intro pts
    by_cases hle : pts.length ≤ M
    · rw [refineLeaves, if_pos hle]; simp
    · rw [refineLeaves, if_neg hle, List.map_flatMap, List.flatMap_def, List.sum_flatten,
        List.map_map]
      have hcongr : ∀ c ∈ List.range B,
          (List.sum ∘ fun c => ((refineLeaves B M d
              (pts.filter (fun k => boxDigit B d k == c))).map (fun e => e.2.length))) c
            = (pts.filter (fun k => boxDigit B d k == c)).length := by
        intro c _
        exact ih _
      rw [List.map_congr_left hcongr]
      exact filter_digit_sum B d hB pts

/-- C4: after the refinement step of `Tree::UpdateRefinement` with capacity
`M`, every leaf that is not at the maximum depth (it has remaining levels, so
it could still be split) holds at most `M` points; only a leaf at maximum
depth may exceed the capacity. -/
theorem leaf_capacity_bound (B M L : ℕ) (pts : List ℕ) (dp : ℕ) (lp : List ℕ)
    (hmem : (dp, lp) ∈ refineLeaves B M L pts) (hdp : 0 < dp) : lp.length ≤ M :=
  refineLeaves_depth_pos_le B M L pts dp lp hmem hdp

/-- C4 witness: the capacity bound evaluated on a concrete refinement of three
points with capacity one. -/
theorem leaf_capacity_bound_witness :
    ((1, [0]) ∈ refineLeaves 2 1 2 [0, 2, 3]) ∧ 0 < 1 ∧ ([0] : List ℕ).length ≤ 1 :=
  ⟨by decide, by decide, leaf_capacity_bound 2 1 2 [0, 2, 3] 1 [0] (by decide) (by decide)⟩

/-- C8: the refinement step of `Tree::UpdateRefinement` terminates on every
input and never reports an error: it always produces a leaf decomposition in
which every input point (including degenerate duplicate coordinates) is placed
in exactly one leaf — the leaf point counts sum to the input count — and a box
that cannot be split further yet exceeds `M` points is accepted as an over-full
leaf at maximum depth rather than refined unboundedly. -/
theorem updateRefinement_terminates_conserves (B M L : ℕ) (pts : List ℕ) (hB : 0 < B) :
    ((refineLeaves B M L pts).map (fun e => e.2.length)).sum = pts.length ∧
      ∀ (dp : ℕ) (lp : List ℕ), (dp, lp) ∈ refineLeaves B M L pts →
        M < lp.length → dp = 0 := by
  refine ⟨refineLeaves_sum B M hB L pts, ?_⟩
  intro dp lp hmem hM
  rcases Nat.eq_zero_or_pos dp with h0 | h0
  · exact h0
  · have := refineLeaves_depth_pos_le B M L pts dp lp hmem h0
    omega

/-- C8 witness: termination and conservation evaluated on the degenerate input
of three identical points with capacity one — all three end in the single
over-full maximum-depth leaf. -/
theorem updateRefinement_terminates_conserves_witness :
    0 < 2 ∧
      ((refineLeaves 2 1 2 [0, 0, 0]).map (fun e => e.2.length)).sum = 3 ∧
      ∀ (dp : ℕ) (lp : List ℕ), (dp, lp) ∈ refineLeaves 2 1 2 [0, 0, 0] →
        1 < lp.length → dp = 0 :=
  ⟨by decide, (updateRefinement_terminates_conserves 2 1 2 [0, 0, 0] (by decide)).1,
    (updateRefinement_terminates_conserves 2 1 2 [0, 0, 0] (by decide)).2⟩

/- ================ Theorems: 2:1 balance fixed point (C5, C7) ============= -/

theorem boxAdjacent_symm (b1 b2 : ℕ × ℕ) : boxAdjacent b1 b2 = boxAdjacent b2 b1 := by
  simp only [boxAdjacent, decide_eq_decide]
  exact and_comm

theorem balance21_some (fuel : ℕ) (r r' : List (ℕ × ℕ))
    (h : balance21 fuel r = some r') : hasViolation r' = false := by
  induction fuel generalizing r with
  | zero =>
    rw [balance21] at h
    by_cases hv : hasViolation r = true
    · rw [if_pos hv] at h; cases h
    · rw [if_neg hv] at h
      cases h
      exact Bool.not_eq_true _ ▸ (Bool.eq_false_iff.mpr hv)
  | succ f ih =>
    rw [balance21] at h
    by_cases hv : hasViolation r = true
    · rw [if_pos hv] at h
      exact ih _ h
    · rw [if_neg hv] at h
      cases h
      exact Bool.eq_false_iff.mpr hv

/-- C5: whenever the 2:1 balance iteration of `Tree::UpdateRefinement` with
`balance21` completes (returns a refinement rather than the nonconvergence
error), every pair of spatially adjacent leaves of the result differs in
refinement level by at most one. -/
theorem balance21_level_restriction (fuel : ℕ) (r r' : List (ℕ × ℕ))
    (h : balance21 fuel r = some r') :
    ∀ b1 ∈ r', ∀ b2 ∈ r', boxAdjacent b1 b2 = true →
      b1.1 ≤ b2.1 + 1 ∧ b2.1 ≤ b1.1 + 1 := by
  have hnv : hasViolation r' = false := balance21_some fuel r r' h
  have hb : ∀ b ∈ r', ∀ c ∈ r', boxAdjacent b c = true → ¬ (b.1 + 2 ≤ c.1) := by
    intro b hbmem c hcmem hadj hle
    have htrue : hasViolation r' = true := by
      unfold hasViolation boxViolates
      refine List.any_eq_true.mpr ⟨b, hbmem, List.any_eq_true.mpr ⟨c, hcmem, ?_⟩⟩
      rw [hadj, decide_eq_true hle]
      rfl
    rw [hnv] at htrue
    cases htrue
  intro b1 h1 b2 h2 hadj
  have ha1 := hb b1 h1 b2 h2 hadj
  have ha2 := hb b2 h2 b1 h1 (boxAdjacent_symm b1 b2 ▸ hadj)
  omega

/-- C5 witness: the level restriction evaluated on a concrete balance run that
splits the coarse leaf next to a two-levels-deeper leaf. -/
theorem balance21_level_restriction_witness :
    balance21 2 [(1, 0), (3, 4)] = some [(2, 0), (2, 1), (3, 4)] ∧
      ((2, 1) ∈ [((2 : ℕ), (0 : ℕ)), (2, 1), (3, 4)]) ∧
      ((3, 4) ∈ [((2 : ℕ), (0 : ℕ)), (2, 1), (3, 4)]) ∧
      boxAdjacent (2, 1) (3, 4) = true ∧
      ((2 : ℕ) ≤ 3 + 1 ∧ (3 : ℕ) ≤ 2 + 1) :=
  ⟨by decide, by decide, by decide, by decide,
    balance21_level_restriction 2 [(1, 0), (3, 4)] [(2, 0), (2, 1), (3, 4)] (by decide)
      (2, 1) (by decide) (3, 4) (by decide) (by decide)⟩

/-- C7: the balance iteration never returns normally with a silently
unbalanced refinement — either the bounded number of rounds is exhausted and
the nonconvergence is surfaced as the explicit error `none`, or the returned
refinement has no remaining violation of the level restriction. -/
theorem balance21_surfaces_nonconvergence (fuel : ℕ) (r : List (ℕ × ℕ)) :
    balance21 fuel r = none ∨
      ∃ r', balance21 fuel r = some r' ∧ hasViolation r' = false := by
  cases h : balance21 fuel r with
  | none => exact Or.inl rfl
  | some r' => exact Or.inr ⟨r', rfl, balance21_some fuel r r' h⟩

/- ============== Theorems: stable sort determinism (C6) =================== -/

/-- C6: the tree structure computed by `Tree::UpdateRefinement` is
deterministic — the specification of the stable distributed sort with index
tie-break has exactly one solution, so any two runs on the same keys that each
produce a correct stable-sort permutation produce the identical permutation,
hence the identical sorted node-key vector and partition. -/
theorem refinement_deterministic (mids f1 f2 : List ℕ)
    (h1 : IsStableSortPerm mids f1) (h2 : IsStableSortPerm mids f2) : f1 = f2 := by
  rcases h1 with ⟨hp1, hs1⟩
  rcases h2 with ⟨hp2, hs2⟩
  haveI : IsAntisymm (ℕ × ℕ) keyIdxLt := by
    refine ⟨?_⟩
    intro a b hab hba
    exfalso
    rcases hab with h | ⟨he, hlt⟩ <;> rcases hba with h2 | ⟨he2, hlt2⟩ <;> omega
  have hpp : (outKeys mids f1).Perm (outKeys mids f2) :=
    (hp1.trans hp2.symm).map _
  have heq : outKeys mids f1 = outKeys mids f2 :=
    List.eq_of_perm_of_sorted hpp hs1 hs2
  have hrec : ∀ f : List ℕ, (outKeys mids f).map Prod.snd = f := by
    intro f
    unfold outKeys
    rw [List.map_map]
    simp [Function.comp_def]
  rw [← hrec f1, ← hrec f2, heq]

/-- C6 witness: uniqueness of the stable-sort output evaluated on concrete
keys with a tie broken by index. -/
theorem refinement_deterministic_witness :
    IsStableSortPerm [5, 3, 5] [1, 0, 2] ∧ ([1, 0, 2] : List ℕ) = [1, 0, 2] :=
  ⟨by decide, refinement_deterministic [5, 3, 5] [1, 0, 2] [1, 0, 2] (by decide) (by decide)⟩

/-- C1 witness: the near-list membership equivalence evaluated on a concrete
instance of one element with one source node and two targets. -/
theorem buildNearList_mem_iff_witness :
    (0 < 1) ∧ (0 < 1) ∧ (0 < 2) ∧
      (([0] : List ℤ) ∈ nearRun ([[0], [5]] : List (List ℤ)) [[0]] [1] [1] [0] 0 ↔
        ∃ sr ∈ elemNodes ([[0]] : List (List ℤ)) [1] 0 1,
          0 < sr.2 ∧ dist2 ([0] : List ℤ) sr.1 < sr.2 * sr.2) :=
  ⟨by decide, by decide, by decide,
    buildNearList_mem_iff ([[0], [5]] : List (List ℤ)) [[0]] [1] [1] [0] 0 0
      (by decide) (by decide) (by decide)⟩
